import Mathlib

/-!
Verification of the n-gram autocomplete fallback of `app.py`.

Text is modelled as `List Char` (a Python `str`).  Python dicts whose
insertion order matters are modelled as association lists.  The
regex-based tokenizer `_token_re.findall` is embedded as a fuel-driven
scanner (`findallAux`); the fuel equals the length of the input, which
suffices because every recursive step consumes at least one character.
Lower-casing is ASCII (`Char.toLower`), faithful on the alphabet the
token pattern `[A-Za-z0-9가-힣]` can match.
-/

/-- Characters matched by the token character class `[A-Za-z0-9가-힣]`. -/
def isWordChar (c : Char) : Bool :=
  let n := c.toNat
  (65 ≤ n && n ≤ 90) || (97 ≤ n && n ≤ 122) || (48 ≤ n && n ≤ 57) ||
  (0xAC00 ≤ n && n ≤ 0xD7A3)

/-- Connector characters `[._-]` of the token pattern. -/
def isConn (c : Char) : Bool :=
  c == '.' || c == '_' || c == '-'

/-- Greedy match of `(?:[._-][A-Za-z0-9가-힣]+)*` at the front of the input.
Returns the matched extension and the unconsumed rest.  Each recursive
step consumes at least two characters, so fuel `cs.length` is ample. -/
def tokExt : Nat → List Char → List Char × List Char
  | f+1, c :: d :: rest =>
    if isConn c && isWordChar d then
      let run := (d :: rest).takeWhile isWordChar
      let rem := (d :: rest).dropWhile isWordChar
      let p := tokExt f rem
      (c :: (run ++ p.1), p.2)
    else ([], c :: d :: rest)
  | _, cs => ([], cs)

/-- Embedding of `_token_re.findall`: left-to-right scan collecting maximal matches of
`[A-Za-z0-9가-힣]+(?:[._-][A-Za-z0-9가-힣]+)*`.  Each recursive step
consumes at least one character, so fuel `cs.length` is ample. -/
def findallAux : Nat → List Char → List (List Char)
  | f+1, c :: rest =>
    if isWordChar c then
      let run := rest.takeWhile isWordChar
      let rem := rest.dropWhile isWordChar
      let p := tokExt rem.length rem
      ((c :: run) ++ p.1) :: findallAux f p.2
    else findallAux f rest
  | _, _ => []

/-- All matches of `_token_re` in a character list. -/
def tokenFindall (s : List Char) : List (List Char) :=
  findallAux s.length s

/-- String literal helper: the character list of a Lean string literal. -/
def toL (s : String) : List Char :=
  s.data

/-- Python `str.lower()` (ASCII case fold; the identity on Hangul). -/
def lowerL (s : List Char) : List Char :=
  s.map Char.toLower

/-- Embedding of `_tokenize(s)`, i.e. `_token_re.findall((s or "").lower())` (app.py:257-258). -/
def _tokenize (s : List Char) : List (List Char) :=
  tokenFindall (lowerL s)

/-- Embedding of `_last_tokens(s, n)`: the last `n` tokens of the lower-cased text
(app.py:212-214); `toks[-n:]` for the positive `n` the app uses. -/
def _last_tokens (s : List Char) (n : Nat) : List (List Char) :=
  let toks := tokenFindall (lowerL s)
  toks.drop (toks.length - n)

/-- Python `needle in hay` on strings: contiguous-substring test. -/
def isSubstr (needle hay : List Char) : Bool :=
  hay.tails.any (fun t => needle.isPrefixOf t)

/-- One list of `_blend_unique`'s loop: append the elements of `L` not yet
in `out`; the `Bool` is `true` when the early `len(out) >= k` return in
app.py:222 fired.  `seen` and `out` of the source always hold the same
elements, so membership is tested on `out`. -/
def blendList (k : Nat) : List (List Char) → List (List Char) → List (List Char) × Bool
  | [], out => (out, false)
  | x :: xs, out =>
    if out.contains x then blendList k xs out
    else if k ≤ out.length + 1 then (out ++ [x], true)
    else blendList k xs (out ++ [x])

/-- The outer loop of `_blend_unique` over its argument lists. -/
def blendGo (k : Nat) : List (List (List Char)) → List (List Char) → List (List Char)
  | [], out => out.take k
  | L :: Ls, out =>
    match blendList k L out with
    | (out2, true) => out2
    | (out2, false) => blendGo k Ls out2

/-- Embedding of `_blend_unique(*lists, k)` (app.py:216-223): deduplicating
concatenation, stopping as soon as `k` entries are collected. -/
def _blend_unique (lists : List (List (List Char))) (k : Nat) : List (List Char) :=
  blendGo k lists []

/-- The four parts of the precomputed autocomplete index `_ac`
(`prefix`, `bigram`, `trigram`, `phrases` of ac_index.json). -/
structure ACIndex where
  prefixMap : List (List Char × List (List Char))
  bigram : List (List Char × List (List Char))
  trigram : List (List Char × List (List Char))
  phrases : List (List Char)
deriving DecidableEq

/-- Python `dict.get(key, [])` on an index table. -/
def alookup (m : List (List Char × List (List Char))) (key : List Char) :
    List (List Char) :=
  match m.find? (fun kv => kv.1 == key) with
  | some kv => kv.2
  | none => []

/-- The three suggestion lists returned by both suggestion paths. -/
structure SuggestResult where
  completions : List (List Char)
  next : List (List Char)
  phrases : List (List Char)
deriving DecidableEq

/-- The phrase-query base of app.py:245:
`(pref or (last2[-1] if last2 else "")).lower()`. -/
def queryBase (px ctx : List Char) : List Char :=
  let pref := lowerL px
  let last2 := _last_tokens ctx 2
  lowerL (if pref.isEmpty then
            (match last2.reverse with
             | t :: _ => t
             | [] => [])
          else pref)

/-- The completions lookup of app.py:232:
`_ac["prefix"].get(pref, [])[:k*2] if pref else []`. -/
def sw_compl (ac : ACIndex) (pref : List Char) (k : Nat) : List (List Char) :=
  if pref.isEmpty then [] else (alookup ac.prefixMap pref).take (k*2)

/-- The next-word lookup of app.py:234-242, given `last2 = _last_tokens(context, 2)`:
trigram entry (truncated to `k`); when it has fewer than `k` entries,
`_blend_unique` with the first `k*2` bigram entries for the last token;
with a single token, the bigram entry truncated to `k`. -/
def sw_next (ac : ACIndex) (last2 : List (List Char)) (k : Nat) : List (List Char) :=
  match last2 with
  | [w1, w2] =>
    let t := (alookup ac.trigram (w1 ++ ('\t' :: w2))).take k
    if t.length < k then _blend_unique [t, (alookup ac.bigram w2).take (k*2)] k
    else t
  | [w] => (alookup ac.bigram w).take k
  | _ => []

/-- The phrase lookup of app.py:244-253, given the query base: the first
`k*2` prefix matches; when fewer than `k`, `_blend_unique` with the
first `k*2` substring matches. -/
def sw_phrases (ac : ACIndex) (base : List Char) (k : Nat) : List (List Char) :=
  if base.isEmpty then []
  else
    let starts := (ac.phrases.filter (fun p => base.isPrefixOf p)).take (k*2)
    if starts.length < k then
      let cont := (ac.phrases.filter (fun p => isSubstr base p)).take (k*2)
      _blend_unique [starts, cont] k
    else starts.take k

/-- Embedding of `suggest_words(prefix, context, k)` (app.py:225-255) after
`_load_ac_if_changed`, with the global `_ac` passed explicitly
(`none` models a falsy `_ac`, app.py:227); the final line truncates all
three lists to `k`. -/
def suggest_words (ac? : Option ACIndex) (px ctx : List Char) (k : Nat) :
    SuggestResult :=
  match ac? with
  | none => ⟨[], [], []⟩
  | some ac =>
    ⟨(sw_compl ac (lowerL px) k).take k,
     (sw_next ac (_last_tokens ctx 2) k).take k,
     (sw_phrases ac (queryBase px ctx) k).take k⟩

/-- One step of Python dict counting `freq[t] = freq.get(t, 0) + 1`:
increment in place, insert at the end when absent (insertion order). -/
def bump (m : List (List Char × Nat)) (t : List Char) : List (List Char × Nat) :=
  match m with
  | [] => [(t, 1)]
  | (s, n) :: rest => if s == t then (s, n + 1) :: rest else (s, n) :: bump rest t

/-- Occurrence counts of a token list, keys in first-occurrence order. -/
def countFreq (toks : List (List Char)) : List (List Char × Nat) :=
  toks.foldl bump []

/-- Stable insertion for descending-count order: ties keep the earlier
item first, as Python's stable `sorted(key=lambda x: -x[1])` does. -/
def insertByCount (x : List Char × Nat) :
    List (List Char × Nat) → List (List Char × Nat)
  | [] => [x]
  | y :: ys => if y.2 ≤ x.2 then x :: y :: ys else y :: insertByCount x ys

/-- Stable sort by descending count (extensionally Python's
`sorted(items, key=lambda x: -x[1])`, stable sorts being unique). -/
def sortByCountDesc : List (List Char × Nat) → List (List Char × Nat)
  | [] => []
  | x :: xs => insertByCount x (sortByCountDesc xs)

/-- Embedding of `[w for w, _ in sorted(freq.items(), key=lambda x: -x[1])][:k]`. -/
def rankDesc (freq : List (List Char × Nat)) (k : Nat) : List (List Char) :=
  ((sortByCountDesc freq).map (fun x => x.1)).take k

/-- Frequency-ranked first `k` items of a token list. -/
def freqRank (l : List (List Char)) (k : Nat) : List (List Char) :=
  rankDesc (countFreq l) k

/-- The live trigram scan of app.py:280-282: every `toks[i+2]` with
`toks[i] == w1` and `toks[i+1] == w2`. -/
def scan3 (w1 w2 : List Char) : List (List Char) → List (List Char)
  | a :: rest =>
    (match rest with
     | b :: c :: _ => if a == w1 && b == w2 then [c] else []
     | _ => []) ++ scan3 w1 w2 rest
  | [] => []

/-- The live bigram scan of app.py:285-287: every `toks[i+1]` with
`toks[i] == w`. -/
def scan2 (w : List Char) : List (List Char) → List (List Char)
  | a :: rest =>
    (match rest with
     | b :: _ => if a == w then [b] else []
     | _ => []) ++ scan2 w rest
  | [] => []

/-- The length-`n` sliding windows of a token list (`range(len-n+1)`). -/
def windows (n : Nat) : List (List Char) → List (List (List Char))
  | [] => []
  | t :: rest =>
    if n ≤ (t :: rest).length then ((t :: rest).take n) :: windows n rest
    else []

/-- Embedding of `" ".join(ws)`. -/
def joinSp : List (List Char) → List Char
  | [] => []
  | [w] => w
  | w :: ws => w ++ (' ' :: joinSp ws)

/-- The n-gram phrase candidates of app.py:296-298 in iteration order:
all space-joined 2-grams, then 3-grams, then 4-grams. -/
def ngramCands (toks : List (List Char)) : List (List Char) :=
  (windows 2 toks).map joinSp ++ (windows 3 toks).map joinSp ++
  (windows 4 toks).map joinSp

/-- The phrase-collecting loop of app.py:295-304: keep candidates that
contain `pref` and are new, stopping (the `break`s) as soon as `k`
phrases are collected. -/
def phrasesLoop (pref : List Char) (k : Nat) :
    List (List Char) → List (List Char) → List (List Char)
  | [], acc => acc
  | ph :: rest, acc =>
    if isSubstr pref ph && !(acc.contains ph) then
      let acc2 := acc ++ [ph]
      if k ≤ acc2.length then acc2 else phrasesLoop pref k rest acc2
    else phrasesLoop pref k rest acc

/-- The raw next-word collection of app.py:276-287: a live trigram scan
on the last two context tokens, a live bigram scan on a single one. -/
def sfd_next_raw (ctxT toks : List (List Char)) : List (List Char) :=
  match ctxT.reverse with
  | w2 :: w1 :: _ => scan3 w1 w2 toks
  | [w] => scan2 w toks
  | [] => []

/-- Embedding of `suggest_from_doc(prefix, context, doc, k)` (app.py:260-306): the
document-text-driven variant of the three lookups. -/
def suggest_from_doc (px ctx doc : List Char) (k : Nat) : SuggestResult :=
  let toks := _tokenize doc
  if toks.isEmpty then ⟨[], [], []⟩
  else
    let pref := lowerL px
    let freq := if pref.isEmpty then []
                else countFreq (toks.filter (fun t => pref.isPrefixOf t))
    ⟨rankDesc freq k,
     freqRank (sfd_next_raw (_tokenize ctx) toks) k,
     if pref.isEmpty then [] else phrasesLoop pref k (ngramCands toks) []⟩

/-- Embedding of `ac_api` (app.py:429-442): truncate the document to 4000 characters,
take the index path, and when it yields nothing at all fall back to the
document path (a non-empty `suggest_words` dict is always truthy, so
only the `any(base.values())` test matters). -/
def ac_api (ac? : Option ACIndex) (px ctx : List Char) (k : Nat)
    (doc : List Char) : SuggestResult :=
  let doc4 := doc.take 4000
  let base := suggest_words ac? px ctx k
  if base.completions.isEmpty && base.next.isEmpty && base.phrases.isEmpty then
    if doc4.isEmpty then ⟨[], [], []⟩ else suggest_from_doc px ctx doc4 k
  else base

/-- The index file on disk: whether `AC_PATH` exists, its mtime, and the
parse of its contents (app.py:203-210). -/
structure AcFile where
  present : Bool
  mtime : Int
  parsed : Option ACIndex

/-- The module globals `_ac` and `_ac_mtime` (app.py:65). -/
structure AcState where
  ac : Option ACIndex
  ac_mtime : Int

/-- Embedding of `_load_ac_if_changed()` (app.py:203-210): a missing file leaves the
state untouched; a changed mtime reloads. -/
def _load_ac_if_changed (f : AcFile) (st : AcState) : AcState :=
  if f.present = false then st
  else if f.mtime ≠ st.ac_mtime then ⟨f.parsed, f.mtime⟩
  else st

/-- A JSON-bearing file: whether it exists, and its parse (`none` when
`json.load` raises). -/
structure JsonFile (α : Type) where
  present : Bool
  parsed : Option α

/-- Embedding of `load_json(path, default)` (app.py:79-83): the default on a missing
file and on a parse failure. -/
def load_json {α : Type} (f : JsonFile α) (dflt : α) : α :=
  if f.present = false then dflt
  else
    match f.parsed with
    | some v => v
    | none => dflt

/-- JSON values, for the persisted-state schema. -/
inductive J where
  | obj : List (List Char × J) → J
  | arr : List J → J
  | str : List Char → J
  | num : Int → J
  | null : J

/-- Key lookup in a JSON object (`none` on absent key or non-object). -/
def jget (j : J) (key : List Char) : Option J :=
  match j with
  | J.obj kvs => (kvs.find? (fun kv => kv.1 == key)).map (fun kv => kv.2)
  | _ => none

/-- Modelled from the spec: coercion of the persisted `user_dict` value —
per §6 a non-list entry for a language is coerced to an empty list. -/
def coerceUserDict (j : J) : List (List Char × List J) :=
  match j with
  | J.obj kvs =>
    kvs.map (fun kv => (kv.1, match kv.2 with | J.arr l => l | _ => []))
  | _ => []

/-- The persisted Memory aggregate of spec §3/§6. -/
structure Memory where
  accept_counts : J
  last_used_at : J
  doc_freq : J
  user_dict : List (List Char × List J)
  per_doc_accept : J

/-- Modelled from the spec: the Memory loader is not part of src/app.py
(src holds only the n-gram fallback); per §6, every missing top-level
key defaults independently to its empty structure. -/
def parse_memory (j : J) : Memory :=
  ⟨(jget j (toL ("accept_counts"))).getD (J.obj []),
   (jget j (toL ("last_used_at"))).getD (J.obj []),
   (jget j (toL ("doc_freq"))).getD (J.obj []),
   coerceUserDict ((jget j (toL ("user_dict"))).getD (J.obj [])),
   (jget j (toL ("per_doc_accept"))).getD (J.obj [])⟩

/-- Modelled from the spec: loading persisted state — `load_json` with a
fresh empty object as default, then field-by-field reconciliation. -/
def load_memory (f : JsonFile J) : Memory :=
  parse_memory (load_json f (J.obj []))

/-- The next-word lookup exactly as claim C1 words it: the trigram entry
for the last two tokens; when that yields fewer than `k` results, the
bigram results for the last token (the whole entry) blended in after
them, deduplicated, trigram results keeping their positions; for one
token, the bigram entry; at most `k` entries. -/
def nextC1claim (ac : ACIndex) (ctx : List Char) (k : Nat) : List (List Char) :=
  (match _last_tokens ctx 2 with
   | [w1, w2] =>
     let t := alookup ac.trigram (w1 ++ ('\t' :: w2))
     if k ≤ t.length then t.take k
     else _blend_unique [t.take k, alookup ac.bigram w2] k
   | [w] => (alookup ac.bigram w).take k
   | _ => []).take k

/-- The next-word lookup as amended for C1: as the claim words it, except
that only the first `2·k` entries of the bigram list are blended in. -/
def nextC1am (ac : ACIndex) (ctx : List Char) (k : Nat) : List (List Char) :=
  (match _last_tokens ctx 2 with
   | [w1, w2] =>
     let t := alookup ac.trigram (w1 ++ ('\t' :: w2))
     if k ≤ t.length then t.take k
     else _blend_unique [t.take k, (alookup ac.bigram w2).take (k*2)] k
   | [w] => (alookup ac.bigram w).take k
   | _ => []).take k

/-- The phrase lookup exactly as claim C3 words it: the phrases starting
with the query base; only when fewer than `k` such phrases exist,
broadened to all phrases containing the base as a substring, blended
after the prefix matches, deduplicated; at most `k` entries. -/
def phrC3claim (ac : ACIndex) (base : List Char) (k : Nat) : List (List Char) :=
  (let starts := ac.phrases.filter (fun p => base.isPrefixOf p)
   if k ≤ starts.length then starts.take k
   else _blend_unique [starts, ac.phrases.filter (fun p => isSubstr base p)] k).take k

/-- The phrase lookup as amended for C3: as the claim words it, except
that only the first `2·k` substring-containing phrases are blended in. -/
def phrC3am (ac : ACIndex) (base : List Char) (k : Nat) : List (List Char) :=
  (let starts := ac.phrases.filter (fun p => base.isPrefixOf p)
   if k ≤ starts.length then starts.take k
   else _blend_unique [starts,
          (ac.phrases.filter (fun p => isSubstr base p)).take (k*2)] k).take k

/-- The document-path next-word lookup as claim C2 words it for two-token
contexts: the live trigram scan, and when it yields fewer than `k`
results, the live bigram matches for the last token blended in after
them, as in the index path. -/
def nextC2claim (doc ctx : List Char) (k : Nat) : List (List Char) :=
  let toks := _tokenize doc
  match (_tokenize ctx).reverse with
  | w2 :: w1 :: _ =>
    let t := freqRank (scan3 w1 w2 toks) k
    if k ≤ t.length then t
    else _blend_unique [t, freqRank (scan2 w2 toks) k] k
  | _ => []

/-- Index for the C1 counterexample: an empty trigram table and a bigram
entry with repeated words. -/
def idxC1 : ACIndex :=
  ⟨[], [([('b')], [[('a')], [('a')], [('a')], [('a')], [('x')]])], [], []⟩

/-- Index for the C3 counterexample and witness: a phrase list with
repeated phrases containing (but not starting with) the query. -/
def idxC3 : ACIndex :=
  ⟨[], [], [], [toL ("xab"), toL ("xab"), toL ("xab"), toL ("xab"), toL ("yab")]⟩

/-- Index for the C5 counterexample and witness: one completion entry. -/
def idxC5 : ACIndex :=
  ⟨[([('a')], [toL ("ab")])], [], [], []⟩

/-- Index for C9's non-empty next-word conjunct: one trigram entry. -/
def idxC9 : ACIndex :=
  ⟨[], [], [([('a'), ('\t'), ('b')], [[('c')]])], []⟩

/-- Every token the scanner emits is non-empty: each match starts with a
matched word character. -/
lemma findallAux_ne_nil : ∀ (f : Nat) (cs : List Char), ∀ t ∈ findallAux f cs, t ≠ [] := by
  intro f
  induction f with
  | zero => intro cs t ht; simp [findallAux] at ht
  | succ f ih =>
    intro cs t ht
    cases cs with
    | nil => simp [findallAux] at ht
    | cons c rest =>
      by_cases hw : isWordChar c
      · simp only [findallAux, hw, if_true, List.mem_cons] at ht
        rcases ht with h1 | h2
        · subst h1; simp
        · exact ih _ _ h2
      · simp only [findallAux, hw, if_false, Bool.false_eq_true] at ht
        exact ih _ _ ht

/-- The phrase loop never grows past `k` once the accumulator is below it. -/
lemma phrasesLoop_length_le (pref : List Char) (k : Nat) :
    ∀ (cands acc : List (List Char)), acc.length < k →
      (phrasesLoop pref k cands acc).length ≤ k := by
  intro cands
  induction cands with
  | nil => intro acc h; simpa [phrasesLoop] using Nat.le_of_lt h
  | cons ph rest ih =>
    intro acc h
    by_cases hc : (isSubstr pref ph && !(acc.contains ph)) = true
    · by_cases hk : k ≤ (acc ++ [ph]).length
      · simp only [phrasesLoop, hc, if_true, hk]
        simpa using h
      · simp only [phrasesLoop, hc, if_true, hk, if_false]
        exact ih _ (by simp at hk ⊢; omega)
    · simp only [phrasesLoop, hc, Bool.false_eq_true, if_false]
      exact ih _ h

/-- C1, counterexample: with an empty trigram table, a bigram entry
`["a","a","a","a","x"]` for `"b"`, context `"a b"` and `k = 2`, the
code returns `["a"]` (only the first `2·k = 4` bigram entries are
blended, all duplicates), while the claim's blend of the full bigram
entry would yield `["a","x"]`. -/
theorem c1_next_blend_counterexample :
    (suggest_words (some idxC1) [] (toL ("a b")) 2).next ≠
      nextC1claim idxC1 (toL ("a b")) 2 := by decide

/-- C1, amended: for every loaded index, context and `k`, the next-word
lookup returns the trigram entry for the last two context tokens, and,
when that yields fewer than `k` results, the first `2·k` bigram entries
for the last token blended in after them, deduplicated, with trigram
results keeping their positions; the bigram entry alone for a one-token
context; at most `k` entries. -/
theorem c1_next_blend_amended (ac : ACIndex) (px ctx : List Char) (k : Nat) :
    (suggest_words (some ac) px ctx k).next = nextC1am ac ctx k := by
  show (sw_next ac (_last_tokens ctx 2) k).take k = nextC1am ac ctx k
  unfold nextC1am sw_next
  cases h2 : _last_tokens ctx 2 with
  | nil => rfl
  | cons a l =>
    cases l with
    | nil => rfl
    | cons b l2 =>
      cases l2 with
      | cons c l3 => rfl
      | nil =>
        by_cases hk : k ≤ (alookup ac.trigram (a ++ ('\t' :: b))).length
        · have h1 : ¬ ((alookup ac.trigram (a ++ ('\t' :: b))).take k).length < k := by
            rw [List.length_take]; omega
          simp only [h1, if_false, hk, if_true, List.take_take, Nat.min_self]
        · have h1 : ((alookup ac.trigram (a ++ ('\t' :: b))).take k).length < k := by
            rw [List.length_take]; omega
          simp only [h1, if_true, hk, if_false]

/-- C2, counterexample: for the document `"a b c b d"`, context `"a b"`
and `k = 8`, the live trigram scan yields only `["c"]` (fewer than `k`),
yet `suggest_from_doc` returns `["c"]` — it never blends in the bigram
matches of `"b"` (which would add `"d"`), unlike the index path the
claim equates it with. -/
theorem c2_doc_next_counterexample :
    (suggest_from_doc [] (toL ("a b")) (toL ("a b c b d")) 8).next ≠
      nextC2claim (toL ("a b c b d")) (toL ("a b")) 8 := by decide

/-- C2, amended: on a context whose token list ends in two tokens
`w1 w2`, the document path's next-word list is exactly the
frequency-ranked live trigram scan truncated to `k` — no bigram results
are blended in, even when the trigram scan yields fewer than `k`. -/
theorem c2_doc_next_amended (px doc ctx : List Char) (k : Nat)
    (pre : List (List Char)) (w1 w2 : List Char)
    (h : _tokenize ctx = pre ++ [w1, w2]) :
    (suggest_from_doc px ctx doc k).next =
      freqRank (scan3 w1 w2 (_tokenize doc)) k := by
  unfold suggest_from_doc
  by_cases ht : (_tokenize doc).isEmpty
  · have hd : _tokenize doc = [] := List.isEmpty_iff.mp ht
    simp [ht, hd, freqRank, countFreq, rankDesc, sortByCountDesc, scan3]
  · simp only [ht, Bool.false_eq_true, if_false]
    show freqRank (sfd_next_raw (_tokenize ctx) (_tokenize doc)) k = _
    unfold sfd_next_raw
    rw [h]
    simp [List.reverse_append]

/-- C2, witness for the amended theorem at the counterexample's input. -/
theorem c2_doc_next_amended_witness :
    (suggest_from_doc [] (toL ("a b")) (toL ("a b c b d")) 8).next =
      freqRank (scan3 [('a')] [('b')] (_tokenize (toL ("a b c b d")))) 8 :=
  c2_doc_next_amended [] (toL ("a b c b d")) (toL ("a b")) 8 []
    [('a')] [('b')] (by decide)

/-- C3, counterexample: with the phrase list
`["xab","xab","xab","xab","yab"]`, query base `"ab"` and `k = 2`, no
phrase starts with the base, so the code broadens — but it blends only
the first `2·k = 4` substring matches (all the duplicate `"xab"`) and
returns `["xab"]`, while the claim's blend over all substring matches
would yield `["xab","yab"]`. -/
theorem c3_phrase_broaden_counterexample :
    (suggest_words (some idxC3) (toL ("ab")) [] 2).phrases ≠
      phrC3claim idxC3 (toL ("ab")) 2 := by decide

/-- C3, amended: for every loaded index and non-empty query base, the
phrase lookup returns phrases starting with the base; only when fewer
than `k` such phrases exist does it broaden, blending after them —
prefix matches keeping their positions, deduplicated — the first `2·k`
phrases containing the base as a substring; at most `k` entries. -/
theorem c3_phrase_broaden_amended (ac : ACIndex) (px ctx : List Char) (k : Nat)
    (hb : queryBase px ctx ≠ []) :
    (suggest_words (some ac) px ctx k).phrases =
      phrC3am ac (queryBase px ctx) k := by
  show (sw_phrases ac (queryBase px ctx) k).take k = _
  unfold sw_phrases phrC3am
  have hbe : (queryBase px ctx).isEmpty = false := by
    rw [Bool.eq_false_iff]
    simpa [List.isEmpty_iff] using hb
  rw [hbe]
  simp only [Bool.false_eq_true, if_false]
  by_cases hl : k ≤ (ac.phrases.filter (fun p => (queryBase px ctx).isPrefixOf p)).length
  · have h1 : ¬ (((ac.phrases.filter
        (fun p => (queryBase px ctx).isPrefixOf p)).take (k*2)).length < k) := by
      rw [List.length_take]; omega
    rw [if_neg h1, if_pos hl]
    rw [List.take_take, List.take_take, List.take_take]
    congr 1
    omega
  · have h1 : ((ac.phrases.filter
        (fun p => (queryBase px ctx).isPrefixOf p)).take (k*2)).length < k := by
      rw [List.length_take]; omega
    have h2 : (ac.phrases.filter
        (fun p => (queryBase px ctx).isPrefixOf p)).take (k*2) =
        ac.phrases.filter (fun p => (queryBase px ctx).isPrefixOf p) :=
      List.take_of_length_le (by omega)
    rw [if_pos h1, if_neg hl, h2]

/-- C3, witness for the amended theorem at the counterexample's input. -/
theorem c3_phrase_broaden_amended_witness :
    (suggest_words (some idxC3) (toL ("ab")) [] 2).phrases =
      phrC3am idxC3 (queryBase (toL ("ab")) []) 2 :=
  c3_phrase_broaden_amended idxC3 (toL ("ab")) [] 2 (by decide)

/-- C4, counterexample: `_tokenize` applies no length filter at all — it
returns the single-character token `"a"` (below both script minima 2
and 3) and a 25-character Latin token (above both caps 20 and 24). -/
theorem c4_length_bounds_counterexample :
    _tokenize (toL ("a")) = [[('a')]] ∧
    ¬ (2 ≤ (([('a')] : List Char)).length) ∧
    toL ("abcdefghijklmnopqrstuvwxy") ∈
      _tokenize (toL ("abcdefghijklmnopqrstuvwxy")) ∧
    24 < (toL ("abcdefghijklmnopqrstuvwxy")).length := by decide

/-- C4, amended: the tokenizer enforces no script-specific length bounds;
the only length guarantee is that every returned token is non-empty
(each match starts with a matched word character). -/
theorem c4_tokens_nonempty (s t : List Char) (h : t ∈ _tokenize s) :
    1 ≤ t.length :=
  List.length_pos.mpr (findallAux_ne_nil _ _ t h)

/-- C4, witness for the amended theorem on a concrete document. -/
theorem c4_tokens_nonempty_witness :
    1 ≤ (([('a'), ('b')] : List Char)).length :=
  c4_tokens_nonempty (toL ("ab cd")) [('a'), ('b')] (by decide)

/-- C5, counterexample: with an index whose only entry is the completion
`"ab"` for prefix `"a"`, and a document yielding the completion `"aq"`,
the `/ac` endpoint returns the index result alone — the document-driven
suggestions are not combined with it. -/
theorem c5_no_blend_counterexample :
    ac_api (some idxC5) (toL ("a")) [] 8 (toL ("aq aq")) =
      ⟨[toL ("ab")], [], []⟩ ∧
    (suggest_from_doc (toL ("a")) [] ((toL ("aq aq")).take 4000) 8).completions =
      [toL ("aq")] ∧
    toL ("aq") ∉
      (ac_api (some idxC5) (toL ("a")) [] 8 (toL ("aq aq"))).completions := by
  decide

/-- C5, amended: the `/ac` endpoint never combines the two paths — its
response is always exactly one path's output: the index path's whenever
that yields any result, and only when the index path yields nothing at
all is the document-driven result substituted for it wholesale. -/
theorem c5_substitution_amended (ac? : Option ACIndex) (px ctx : List Char)
    (k : Nat) (doc : List Char) :
    (ac_api ac? px ctx k doc = suggest_words ac? px ctx k ∨
     ac_api ac? px ctx k doc = suggest_from_doc px ctx (doc.take 4000) k) ∧
    (suggest_words ac? px ctx k ≠ ⟨[], [], []⟩ →
      ac_api ac? px ctx k doc = suggest_words ac? px ctx k) := by
  simp only [ac_api]
  by_cases hc : ((suggest_words ac? px ctx k).completions.isEmpty &&
      (suggest_words ac? px ctx k).next.isEmpty &&
      (suggest_words ac? px ctx k).phrases.isEmpty) = true
  · have hb : suggest_words ac? px ctx k = ⟨[], [], []⟩ := by
      rcases hsw : suggest_words ac? px ctx k with ⟨c, n, p⟩
      rw [hsw] at hc
      simp only [Bool.and_eq_true, List.isEmpty_iff] at hc
      rw [hc.1.1, hc.1.2, hc.2]
    refine ⟨?_, fun hne => absurd hb hne⟩
    rw [if_pos hc]
    by_cases hd : (doc.take 4000).isEmpty = true
    · rw [if_pos hd]; exact Or.inl hb.symm
    · rw [if_neg hd]; exact Or.inr rfl
  · constructor
    · rw [if_neg hc]; exact Or.inl rfl
    · intro h3; rw [if_neg hc]

/-- C5, witness for the amended theorem at a concrete input where the
index path yields a result. -/
theorem c5_substitution_amended_witness :
    ac_api (some idxC5) (toL ("a")) [] 8 (toL ("aq aq")) =
      suggest_words (some idxC5) (toL ("a")) [] 8 :=
  (c5_substitution_amended (some idxC5) (toL ("a")) [] 8 (toL ("aq aq"))).2
    (by decide)

/-- C6: when the index file is absent and no index has ever been loaded,
`_load_ac_if_changed` leaves the state untouched and `suggest_words`
returns the all-empty result for every prefix, context and `k` (a total
function — no error path exists). -/
theorem c6_absent_index_empty (f : AcFile) (st : AcState) (px ctx : List Char)
    (k : Nat) (h1 : f.present = false) (h2 : st.ac = none) :
    suggest_words (_load_ac_if_changed f st).ac px ctx k = ⟨[], [], []⟩ := by
  simp [_load_ac_if_changed, h1, h2, suggest_words]

/-- C6, witness: a fresh process (no file, `_ac = None`, `_ac_mtime = 0`). -/
theorem c6_absent_index_empty_witness :
    suggest_words (_load_ac_if_changed (AcFile.mk false 0 none)
      (AcState.mk none 0)).ac (toL ("p")) (toL ("c d")) 8 = ⟨[], [], []⟩ :=
  c6_absent_index_empty (AcFile.mk false 0 none) (AcState.mk none 0)
    (toL ("p")) (toL ("c d")) 8 rfl rfl

/-- C7: `load_json` returns the caller-supplied default on a missing file
and on an unparseable one, and in the (spec-modelled) Memory loader
every missing top-level field defaults independently to its empty
structure, so malformed persisted state never aborts startup. -/
theorem c7_load_defaults (f : JsonFile J) (d : J) (j : J) :
    ((f.present = false ∨ f.parsed = none) → load_json f d = d) ∧
    (jget j (toL ("accept_counts")) = none →
      (parse_memory j).accept_counts = J.obj []) ∧
    (jget j (toL ("last_used_at")) = none →
      (parse_memory j).last_used_at = J.obj []) ∧
    (jget j (toL ("doc_freq")) = none →
      (parse_memory j).doc_freq = J.obj []) ∧
    (jget j (toL ("user_dict")) = none →
      (parse_memory j).user_dict = []) ∧
    (jget j (toL ("per_doc_accept")) = none →
      (parse_memory j).per_doc_accept = J.obj []) := by
  refine ⟨?_, ?_, ?_, ?_, ?_, ?_⟩
  · rintro (h | h)
    · simp [load_json, h]
    · cases hp : f.present <;> simp [load_json, hp, h]
  · intro h
    show (jget j (toL ("accept_counts"))).getD (J.obj []) = J.obj []
    rw [h]; rfl
  · intro h
    show (jget j (toL ("last_used_at"))).getD (J.obj []) = J.obj []
    rw [h]; rfl
  · intro h
    show (jget j (toL ("doc_freq"))).getD (J.obj []) = J.obj []
    rw [h]; rfl
  · intro h
    show coerceUserDict ((jget j (toL ("user_dict"))).getD (J.obj [])) = []
    rw [h]; rfl
  · intro h
    show (jget j (toL ("per_doc_accept"))).getD (J.obj []) = J.obj []
    rw [h]; rfl

/-- C7, witness: a missing file yields the supplied default, and an empty
persisted object leaves every field at its independent default. -/
theorem c7_load_defaults_witness :
    load_json (JsonFile.mk false none) (J.num 7) = J.num 7 ∧
    (parse_memory (J.obj [])).accept_counts = J.obj [] ∧
    (parse_memory (J.obj [])).last_used_at = J.obj [] ∧
    (parse_memory (J.obj [])).doc_freq = J.obj [] ∧
    (parse_memory (J.obj [])).user_dict = [] ∧
    (parse_memory (J.obj [])).per_doc_accept = J.obj [] :=
  ⟨(c7_load_defaults (JsonFile.mk false none) (J.num 7) (J.obj [])).1
      (Or.inl rfl),
   (c7_load_defaults (JsonFile.mk false none) (J.num 7) (J.obj [])).2.1 rfl,
   (c7_load_defaults (JsonFile.mk false none) (J.num 7) (J.obj [])).2.2.1 rfl,
   (c7_load_defaults (JsonFile.mk false none) (J.num 7) (J.obj [])).2.2.2.1 rfl,
   (c7_load_defaults (JsonFile.mk false none) (J.num 7) (J.obj [])).2.2.2.2.1 rfl,
   (c7_load_defaults (JsonFile.mk false none) (J.num 7) (J.obj [])).2.2.2.2.2 rfl⟩

/-- Zeta-reduced shape of `suggest_from_doc`, for rewriting. -/
lemma suggest_from_doc_eq (px ctx doc : List Char) (k : Nat) :
    suggest_from_doc px ctx doc k =
      if (_tokenize doc).isEmpty then ⟨[], [], []⟩
      else
        ⟨rankDesc (if (lowerL px).isEmpty then []
            else countFreq ((_tokenize doc).filter
              (fun t => (lowerL px).isPrefixOf t))) k,
         freqRank (sfd_next_raw (_tokenize ctx) (_tokenize doc)) k,
         if (lowerL px).isEmpty then []
         else phrasesLoop (lowerL px) k (ngramCands (_tokenize doc)) []⟩ := rfl

/-- C8, counterexample: with `k = 0` the document path's phrase loop
appends one phrase before its `len(phrases) >= k` break fires, so the
returned phrase list has 1 > 0 entries. -/
theorem c8_cap_counterexample :
    ¬ ((suggest_from_doc (toL ("ab")) [] (toL ("ab cd")) 0).phrases.length ≤ 0) := by
  decide

/-- C8, amended: for every index, document text, prefix, context and
`k ≥ 1`, each of the three returned lists of both suggestion paths
contains at most `k` elements (for `k = 0` the document path's phrase
list may contain one element). -/
theorem c8_cap_amended (ac? : Option ACIndex) (px ctx doc : List Char)
    (k : Nat) (hk : 1 ≤ k) :
    (suggest_words ac? px ctx k).completions.length ≤ k ∧
    (suggest_words ac? px ctx k).next.length ≤ k ∧
    (suggest_words ac? px ctx k).phrases.length ≤ k ∧
    (suggest_from_doc px ctx doc k).completions.length ≤ k ∧
    (suggest_from_doc px ctx doc k).next.length ≤ k ∧
    (suggest_from_doc px ctx doc k).phrases.length ≤ k := by
  refine ⟨?_, ?_, ?_, ?_, ?_, ?_⟩
  · cases ac? with
    | none => simp [suggest_words]
    | some ac => exact List.length_take_le k _
  · cases ac? with
    | none => simp [suggest_words]
    | some ac => exact List.length_take_le k _
  · cases ac? with
    | none => simp [suggest_words]
    | some ac => exact List.length_take_le k _
  · rw [suggest_from_doc_eq]
    by_cases ht : (_tokenize doc).isEmpty = true
    · rw [if_pos ht]; simp
    · rw [if_neg ht]; exact List.length_take_le k _
  · rw [suggest_from_doc_eq]
    by_cases ht : (_tokenize doc).isEmpty = true
    · rw [if_pos ht]; simp
    · rw [if_neg ht]; exact List.length_take_le k _
  · rw [suggest_from_doc_eq]
    by_cases ht : (_tokenize doc).isEmpty = true
    · rw [if_pos ht]; simp
    · rw [if_neg ht]
      by_cases hp : (lowerL px).isEmpty = true
      · simp [hp]
      · simp only [hp, Bool.false_eq_true, if_false]
        exact phrasesLoop_length_le (lowerL px) k (ngramCands (_tokenize doc)) []
          (by simpa using hk)

/-- C8, witness for the amended theorem at a concrete input. -/
theorem c8_cap_amended_witness :
    (suggest_words (some idxC1) (toL ("a")) (toL ("a b")) 8).completions.length ≤ 8 ∧
    (suggest_words (some idxC1) (toL ("a")) (toL ("a b")) 8).next.length ≤ 8 ∧
    (suggest_words (some idxC1) (toL ("a")) (toL ("a b")) 8).phrases.length ≤ 8 ∧
    (suggest_from_doc (toL ("a")) (toL ("a b")) (toL ("ab cd")) 8).completions.length ≤ 8 ∧
    (suggest_from_doc (toL ("a")) (toL ("a b")) (toL ("ab cd")) 8).next.length ≤ 8 ∧
    (suggest_from_doc (toL ("a")) (toL ("a b")) (toL ("ab cd")) 8).phrases.length ≤ 8 :=
  c8_cap_amended (some idxC1) (toL ("a")) (toL ("a b")) (toL ("ab cd")) 8
    (by decide)

/-- C9: an empty (or null, coerced to empty) prefix always yields an
empty completions list in both suggestion paths, while the other lists
may still be non-empty (witnessed by the index `idxC9`). -/
theorem c9_empty_prefix_completions :
    (∀ (ac? : Option ACIndex) (ctx doc : List Char) (k : Nat),
      (suggest_words ac? [] ctx k).completions = [] ∧
      (suggest_from_doc [] ctx doc k).completions = []) ∧
    (suggest_words (some idxC9) [] (toL ("a b")) 2).next = [[('c')]] := by
  constructor
  · intro ac? ctx doc k
    constructor
    · cases ac? with
      | none => rfl
      | some ac =>
        show (sw_compl ac (lowerL []) k).take k = []
        simp [sw_compl, lowerL]
    · rw [suggest_from_doc_eq]
      by_cases ht : (_tokenize doc).isEmpty = true
      · rw [if_pos ht]
      · rw [if_neg ht]
        simp [lowerL, rankDesc, sortByCountDesc]
  · decide

/-- C10: the `/ac` endpoint truncates the document body to its first
4000 characters, so characters beyond position 4000 never influence the
returned suggestions. -/
theorem c10_doc_truncation (ac? : Option ACIndex) (px ctx : List Char)
    (k : Nat) (doc : List Char) :
    ac_api ac? px ctx k doc = ac_api ac? px ctx k (doc.take 4000) := by
  simp only [ac_api, List.take_take, Nat.min_self]
